import Mathlib

/-!
Verification of the statistics engine in `computeStatistics.py`.

The numeric type of the Python source is IEEE double; the embedding uses `ℚ`
(exact rational arithmetic), which realises the same algebraic operations
(`+`, `-`, `*`, `/`) that the source performs.  All functions below are direct
transcriptions of the Python functions of the same name; iteration with an
index over a Python list becomes structural recursion or a `List.foldl` over
the same elements in the same order.
-/

namespace ComputeStatistics

/-- Python's test `"0" <= s[i] <= "9"` on a character. -/
def isDigitChar (c : Char) : Bool :=
  '0' ≤ c && c ≤ '9'

/-- Numeric value of a digit character: Python's `ord(s[i]) - ord("0")`. -/
def digitVal (c : Char) : ℕ :=
  c.toNat - 48

/-- Python's `str.strip()`: remove whitespace from both ends of the token. -/
def stripChars (s : List Char) : List Char :=
  ((s.dropWhile Char.isWhitespace).reverse.dropWhile Char.isWhitespace).reverse

/-- One digit-accumulation loop of `parse_number`
(`while i < len(s) and "0" <= s[i] <= "9": value = value*10 + digit`).
Returns the accumulated value, the number of digits consumed, and the
remaining characters.  The digit count stands in for Python's `has_digit`
flag (count `> 0`) and for `frac_div` (`frac_div = 10 ^ count`). -/
def scanDigits : ℕ → ℕ → List Char → ℕ × ℕ × List Char
  | acc, cnt, [] => (acc, cnt, [])
  | acc, cnt, c :: cs =>
    if isDigitChar c then scanDigits (acc * 10 + digitVal c) (cnt + 1) cs
    else (acc, cnt, c :: cs)

/-- The digit-scanning part of `parse_number` after the sign has been
consumed: integer digits, optional `.` followed by fraction digits; the
whole remaining input must be consumed and at least one digit seen
(`has_digit`, here the digit counts), otherwise the Python code raises
`ValueError` (here: `none`).  `frac_div` is `10 ^ fracCnt`. -/
def parseAfterSign (sign : ℚ) (body : List Char) : Option ℚ :=
  match scanDigits 0 0 body with
  | (int_part, intCnt, r1) =>
    match r1 with
    | '.' :: r2 =>
      match scanDigits 0 0 r2 with
      | (frac_part, fracCnt, r3) =>
        if intCnt + fracCnt = 0 ∨ r3 ≠ [] then none
        else some (sign * ((int_part : ℚ) + (frac_part : ℚ) / (10 : ℚ) ^ fracCnt))
    | [] => if intCnt = 0 then none else some (sign * (int_part : ℚ))
    | _ :: _ => none

/-- `parse_number` on the already-stripped character list: the leading
`-` / `+` test of the Python code (`sign = -1.0; i = 1` / `i = 1`), then the
digit scan on the rest. -/
def parseCore (s : List Char) : Option ℚ :=
  match s with
  | [] => none
  | c :: rest =>
    if c = '-' then parseAfterSign (-1) rest
    else if c = '+' then parseAfterSign 1 rest
    else parseAfterSign 1 (c :: rest)

/-- `parse_number(token)`: strip, then scan; `none` models the raised
`ValueError`. -/
def parse_number (token : String) : Option ℚ :=
  parseCore (stripChars token.toList)

/-- The Newton refinement loop of `sqrt_newton`:
`for _ in range(n): guess = 0.5 * (guess + x / guess)`. -/
def newtonLoop (x : ℚ) : ℕ → ℚ → ℚ
  | 0, g => g
  | n + 1, g => newtonLoop x n ((1 / 2) * (g + x / g))

/-- `sqrt_newton(x)`: `0` for `x == 0`, otherwise 25 Newton iterations
from `x if x >= 1.0 else 1.0`. -/
def sqrt_newton (x : ℚ) : ℚ :=
  if x = 0 then 0
  else newtonLoop x 25 (if 1 ≤ x then x else 1)

/-- Inner loop of `selection_sort`:
`for j in range(i+1, n): if arr[j] < arr[min_index]: min_index = j`. -/
def selMinIdx (arr : List ℚ) (i : ℕ) : ℕ :=
  (List.range' (i + 1) (arr.length - (i + 1))).foldl
    (fun m j => if arr.getD j 0 < arr.getD m 0 then j else m) i

/-- The swap `arr[i], arr[min_index] = arr[min_index], arr[i]`. -/
def listSwap (l : List ℚ) (i j : ℕ) : List ℚ :=
  (l.set i (l.getD j 0)).set j (l.getD i 0)

/-- One step of the outer loop of `selection_sort`. -/
def selStep (arr : List ℚ) (i : ℕ) : List ℚ :=
  listSwap arr i (selMinIdx arr i)

/-- `selection_sort(values)`: copy, then for each `i` in `range(n)` swap the
minimum of `arr[i:]` into position `i`.  (The Python copy `values[:]` is
implicit: Lean lists are immutable, so the input is never mutated.) -/
def selection_sort (values : List ℚ) : List ℚ :=
  (List.range values.length).foldl selStep values

/-- `mean(values)`: accumulate the total in encounter order, divide by the
length. -/
def mean (values : List ℚ) : ℚ :=
  (values.foldl (· + ·) 0) / (values.length : ℚ)

/-- `median(sorted_vals)`: middle element for odd length, average of the two
central elements for even length.  Out-of-range accesses (possible only for
the empty list, where Python raises `IndexError`) are totalised by `getD`. -/
def median (sorted_vals : List ℚ) : ℚ :=
  let n := sorted_vals.length
  let mid := n / 2
  if n % 2 = 1 then sorted_vals.getD mid 0
  else (sorted_vals.getD (mid - 1) 0 + sorted_vals.getD mid 0) / 2

/-- The counts dictionary of `mode`, as an insertion-ordered association
list: `counts[v] = counts.get(v, 0) + 1` keeps the key's position on update
and appends new keys, exactly like a Python `dict`. -/
def buildCounts (values : List ℚ) : List (ℚ × ℕ) :=
  values.foldl
    (fun counts v =>
      if counts.any (fun p => p.1 == v) then
        counts.map (fun p => if p.1 == v then (p.1, p.2 + 1) else p)
      else counts ++ [(v, 1)])
    []

/-- The max-count loop of `mode`:
`for c in counts.values(): if c > max_count: max_count = c`. -/
def maxCountOf (counts : List (ℚ × ℕ)) : ℕ :=
  counts.foldl (fun m p => if p.2 > m then p.2 else m) 0

/-- `mode(values)`: empty when no value repeats, otherwise all keys whose
count equals the maximum, in dictionary (first-occurrence) order. -/
def mode (values : List ℚ) : List ℚ :=
  let counts := buildCounts values
  let max_count := maxCountOf counts
  if max_count ≤ 1 then []
  else ((counts.filter (fun p => p.2 == max_count)).map Prod.fst)

/-- `variance(values, avg)`: population variance, accumulated in encounter
order and divided by `len(values)`. -/
def variance (values : List ℚ) (avg : ℚ) : ℚ :=
  (values.foldl (fun total v => total + (v - avg) * (v - avg)) 0)
    / (values.length : ℚ)

/-- The `StatisticsResult` record produced by `build_report` (the report's
numeric content; formatting, file names and elapsed time are I/O concerns
outside the computational core). -/
structure StatisticsResult where
  count : ℕ
  invalid : ℕ
  mean : ℚ
  median : ℚ
  modes : List ℚ
  variance : ℚ
  stdDev : ℚ
  deriving Repr, DecidableEq

/-- The computation performed by `build_report`: sort, then the five
aggregates. -/
def build_report (values : List ℚ) (invalid_count : ℕ) : StatisticsResult :=
  let sorted_vals := selection_sort values
  let avg := mean values
  let med := median sorted_vals
  let modes := mode values
  let var := variance values avg
  let std := sqrt_newton var
  { count := values.length
    invalid := invalid_count
    mean := avg
    median := med
    modes := modes
    variance := var
    stdDev := std }

/-- The valid values extracted by `main`'s token loop, in encounter order. -/
def parsedValues (tokens : List String) : List ℚ :=
  tokens.filterMap parse_number

/-- The invalid-token count of `main`'s token loop. -/
def invalidCount (tokens : List String) : ℕ :=
  (tokens.filter (fun t => (parse_number t).isNone)).length

/-- The computation path of `main` after tokens are read: partition the
tokens, and either signal that no valid numbers were found (`none`, the
`"No valid numbers found"` branch) or build the statistics report. -/
def computeTokens (tokens : List String) : Option StatisticsResult :=
  let values := parsedValues tokens
  if values = [] then none
  else some (build_report values (invalidCount tokens))

/-! ### Helper lemmas: concrete token parses -/

lemma parse_tok2 : parse_number "2" = some 2 := by
  simp [parse_number, parseCore, parseAfterSign, stripChars, List.dropWhile_cons,
    Char.isWhitespace, scanDigits, isDigitChar, digitVal]

lemma parse_tok3 : parse_number "3" = some 3 := by
  simp [parse_number, parseCore, parseAfterSign, stripChars, List.dropWhile_cons,
    Char.isWhitespace, scanDigits, isDigitChar, digitVal]

lemma parse_tok4 : parse_number "4" = some 4 := by
  simp [parse_number, parseCore, parseAfterSign, stripChars, List.dropWhile_cons,
    Char.isWhitespace, scanDigits, isDigitChar, digitVal]

lemma parse_tok5 : parse_number "5" = some 5 := by
  simp [parse_number, parseCore, parseAfterSign, stripChars, List.dropWhile_cons,
    Char.isWhitespace, scanDigits, isDigitChar, digitVal]

lemma parse_tok6 : parse_number "6" = some 6 := by
  simp [parse_number, parseCore, parseAfterSign, stripChars, List.dropWhile_cons,
    Char.isWhitespace, scanDigits, isDigitChar, digitVal]

lemma parse_tok8 : parse_number "8" = some 8 := by
  simp [parse_number, parseCore, parseAfterSign, stripChars, List.dropWhile_cons,
    Char.isWhitespace, scanDigits, isDigitChar, digitVal]

lemma parse_tok9 : parse_number "9" = some 9 := by
  simp [parse_number, parseCore, parseAfterSign, stripChars, List.dropWhile_cons,
    Char.isWhitespace, scanDigits, isDigitChar, digitVal]

lemma parse_tokx : parse_number "x" = none := by
  simp [parse_number, parseCore, parseAfterSign, stripChars, List.dropWhile_cons,
    Char.isWhitespace, scanDigits, isDigitChar, digitVal]

lemma parse_toky : parse_number "y" = none := by
  simp [parse_number, parseCore, parseAfterSign, stripChars, List.dropWhile_cons,
    Char.isWhitespace, scanDigits, isDigitChar, digitVal]

/-- The demo token list of the spec's end-to-end property. -/
def demoTokens : List String :=
  ["4", "8", "6", "5", "3", "2", "8", "9", "2", "5"]

lemma parsedValues_demo :
    parsedValues demoTokens = [4, 8, 6, 5, 3, 2, 8, 9, 2, 5] := by
  simp [demoTokens, parsedValues, parse_tok2, parse_tok3, parse_tok4, parse_tok5,
    parse_tok6, parse_tok8, parse_tok9]

lemma invalidCount_demo : invalidCount demoTokens = 0 := by
  simp [demoTokens, invalidCount, parse_tok2, parse_tok3, parse_tok4, parse_tok5,
    parse_tok6, parse_tok8, parse_tok9]

lemma selection_sort_demo :
    selection_sort [4, 8, 6, 5, 3, 2, 8, 9, 2, 5] = [2, 2, 3, 4, 5, 5, 6, 8, 8, 9] := by
  have hr : List.range 10 = [0, 1, 2, 3, 4, 5, 6, 7, 8, 9] := by rfl
  norm_num [selection_sort, hr, selStep, selMinIdx, listSwap, List.range', List.getD,
    List.set]

lemma mean_demo : mean [4, 8, 6, 5, 3, 2, 8, 9, 2, 5] = 26 / 5 := by
  norm_num [mean]

lemma median_demo : median [2, 2, 3, 4, 5, 5, 6, 8, 8, 9] = 5 := by
  norm_num [median, List.getD]

lemma mode_demo : mode [4, 8, 6, 5, 3, 2, 8, 9, 2, 5] = [8, 5, 2] := by
  norm_num [mode, buildCounts, maxCountOf]

lemma variance_demo : variance [4, 8, 6, 5, 3, 2, 8, 9, 2, 5] (26 / 5) = 144 / 25 := by
  norm_num [variance]

/-! ### Claim theorems -/

/-- C1.  End-to-end: on the input tokens `["4","8","6","5","3","2","8","9","2","5"]`
the engine (parse every token, then build the report) produces count 10,
invalid-token count 0, mean `5.2 = 26/5`, median `5.0`, modal set
`{2, 5, 8}` (the modes list `[8, 5, 2]`, in first-occurrence order), and
variance `5.76 = 144/25`; the standard-deviation field is the Newton square
root of that variance. -/
theorem computeTokens_demo_end_to_end :
    computeTokens demoTokens =
      some { count := 10, invalid := 0, mean := 26 / 5, median := 5,
             modes := [8, 5, 2], variance := 144 / 25,
             stdDev := sqrt_newton (144 / 25) } ∧
    ([8, 5, 2] : List ℚ).toFinset = ({2, 5, 8} : Finset ℚ) := by
  constructor
  · simp only [computeTokens, parsedValues_demo, invalidCount_demo, build_report,
      selection_sort_demo, mean_demo, median_demo, mode_demo, variance_demo]
    norm_num
    exact fun h => (List.cons_ne_nil _ _ h).elim
  · ext x
    simp
    tauto

/-- C2.  If no token parses as a number, the computation takes the
`"No valid numbers found"` branch (`none`, the `EmptyInputSignal`), and no
`StatisticsResult` — zero-filled or otherwise — is produced. -/
theorem computeTokens_all_invalid (tokens : List String)
    (h : ∀ t ∈ tokens, parse_number t = none) :
    computeTokens tokens = none := by
  have hv : parsedValues tokens = [] := by
    simp only [parsedValues, List.filterMap_eq_nil_iff]
    exact h
  simp [computeTokens, hv]

/-- Witness for C2 at the spec's example `["x", "y"]`. -/
theorem computeTokens_all_invalid_witness :
    (∀ t ∈ ["x", "y"], parse_number t = none) ∧
      computeTokens ["x", "y"] = none := by
  have h : ∀ t ∈ ["x", "y"], parse_number t = none := by
    intro t ht
    simp only [List.mem_cons, List.not_mem_nil, or_false] at ht
    rcases ht with rfl | rfl
    · exact parse_tokx
    · exact parse_toky
  exact ⟨h, computeTokens_all_invalid ["x", "y"] h⟩

/-- The Newton loop is `n`-fold iteration of the refinement step. -/
lemma newtonLoop_eq_iterate (x : ℚ) :
    ∀ (n : ℕ) (g : ℚ),
      newtonLoop x n g = (fun g => (1 / 2) * (g + x / g))^[n] g := by
  intro n
  induction n with
  | zero => intro g; rfl
  | succ n ih =>
    intro g
    rw [newtonLoop, ih, Function.iterate_succ_apply]

/-- C8.  `sqrt_newton 0 = 0` exactly, and for positive `x` the result is
exactly 25 Newton–Raphson refinements `g ↦ (g + x/g)/2` of the seed
`max x 1` — a fixed iteration count, with no convergence early exit. -/
theorem sqrt_newton_zero_and_iteration :
    sqrt_newton 0 = 0 ∧
      ∀ x : ℚ, 0 < x →
        sqrt_newton x = (fun g => (1 / 2) * (g + x / g))^[25] (max x 1) := by
  constructor
  · rfl
  · intro x hx
    have hseed : (if 1 ≤ x then x else 1) = max x 1 := by
      rcases le_total x 1 with h | h
      · rcases eq_or_lt_of_le h with h1 | h1
        · simp [h1]
        · rw [if_neg (by linarith), max_eq_right h]
      · rw [if_pos h, max_eq_left h]
    rw [sqrt_newton, if_neg (ne_of_gt hx), hseed, newtonLoop_eq_iterate]

/-- Witness for C8 at `x = 4`. -/
theorem sqrt_newton_zero_and_iteration_witness :
    (0 : ℚ) < 4 ∧
      sqrt_newton 4 = (fun g => (1 / 2) * (g + 4 / g))^[25] (max 4 1) :=
  ⟨by norm_num, sqrt_newton_zero_and_iteration.2 4 (by norm_num)⟩

/-! ### Variance: C6 -/

lemma foldl_add_map (f : ℚ → ℚ) :
    ∀ (l : List ℚ) (a : ℚ), l.foldl (fun t v => t + f v) a = a + (l.map f).sum := by
  intro l
  induction l with
  | nil => intro a; simp
  | cons x l ih => intro a; simp [ih, add_assoc]

lemma mean_eq_sum_div (values : List ℚ) :
    mean values = values.sum / (values.length : ℚ) := by
  have h := foldl_add_map id values 0
  simp only [List.map_id] at h
  rw [mean]
  rw [show (fun t v : ℚ => t + v) = (fun t v => t + id v) from rfl, h, zero_add]

lemma variance_eq_sum_div (values : List ℚ) (avg : ℚ) :
    variance values avg
      = ((values.map (fun v => (v - avg) * (v - avg))).sum) / (values.length : ℚ) := by
  rw [variance, foldl_add_map (fun v => (v - avg) * (v - avg)) values 0, zero_add]

lemma sum_eq_zero_iff_of_nonneg :
    ∀ l : List ℚ, (∀ x ∈ l, 0 ≤ x) → (l.sum = 0 ↔ ∀ x ∈ l, x = 0) := by
  intro l
  induction l with
  | nil => simp
  | cons x l ih =>
    intro h
    have hx : 0 ≤ x := h x (by simp)
    have hl : ∀ y ∈ l, 0 ≤ y := fun y hy => h y (by simp [hy])
    have hs : 0 ≤ l.sum := List.sum_nonneg hl
    simp only [List.sum_cons, List.mem_cons]
    rw [add_eq_zero_iff_of_nonneg hx hs, ih hl]
    constructor
    · rintro ⟨h1, h2⟩ y (rfl | hy)
      · exact h1
      · exact h2 y hy
    · intro hy
      exact ⟨hy x (Or.inl rfl), fun y hy2 => hy y (Or.inr hy2)⟩

lemma mean_const (values : List ℚ) (c : ℚ) (h : values ≠ [])
    (hc : ∀ x ∈ values, x = c) : mean values = c := by
  have hn : (values.length : ℚ) ≠ 0 :=
    Nat.cast_ne_zero.mpr (fun hl => h (List.length_eq_zero.mp hl))
  rw [mean_eq_sum_div, List.sum_eq_card_nsmul values c hc, nsmul_eq_mul]
  exact mul_div_cancel_left₀ c hn

/-- C6.  For every non-empty value list, the population variance about the
computed mean is non-negative, and it is zero exactly when all values are
identical. -/
theorem variance_nonneg_zero_iff (values : List ℚ) (h : values ≠ []) :
    0 ≤ variance values (mean values) ∧
      (variance values (mean values) = 0 ↔ ∀ a ∈ values, ∀ b ∈ values, a = b) := by
  have hn : (0 : ℚ) < (values.length : ℚ) := by
    have := List.length_pos.mpr h
    exact_mod_cast this
  have hterm : ∀ x ∈ values.map (fun v => (v - mean values) * (v - mean values)), 0 ≤ x := by
    intro x hx
    rcases List.mem_map.mp hx with ⟨v, _, rfl⟩
    exact mul_self_nonneg _
  have hsum : 0 ≤ (values.map (fun v => (v - mean values) * (v - mean values))).sum :=
    List.sum_nonneg hterm
  constructor
  · rw [variance_eq_sum_div]
    exact div_nonneg hsum (le_of_lt hn)
  · rw [variance_eq_sum_div, div_eq_zero_iff]
    constructor
    · rintro (hz | hz)
      · have hall := (sum_eq_zero_iff_of_nonneg _ hterm).mp hz
        intro a ha b hb
        have h1 : (a - mean values) * (a - mean values) = 0 :=
          hall _ (List.mem_map.mpr ⟨a, ha, rfl⟩)
        have h2 : (b - mean values) * (b - mean values) = 0 :=
          hall _ (List.mem_map.mpr ⟨b, hb, rfl⟩)
        have ha1 := sub_eq_zero.mp (mul_self_eq_zero.mp h1)
        have hb1 := sub_eq_zero.mp (mul_self_eq_zero.mp h2)
        rw [ha1, hb1]
      · exact absurd hz (ne_of_gt hn)
    · intro hab
      left
      rcases List.exists_mem_of_ne_nil values h with ⟨v0, hv0⟩
      have hconst : ∀ x ∈ values, x = v0 := fun x hx => hab x hx v0 hv0
      have hmean : mean values = v0 := mean_const values v0 h hconst
      rw [sum_eq_zero_iff_of_nonneg _ hterm]
      intro x hx
      rcases List.mem_map.mp hx with ⟨v, hv, rfl⟩
      rw [hconst v hv, hmean, sub_self, mul_zero]

/-- Witness for C6 at `[1, 2]`. -/
theorem variance_nonneg_zero_iff_witness :
    ([1, 2] : List ℚ) ≠ [] ∧
      (0 ≤ variance [1, 2] (mean [1, 2]) ∧
        (variance [1, 2] (mean [1, 2]) = 0 ↔
          ∀ a ∈ ([1, 2] : List ℚ), ∀ b ∈ ([1, 2] : List ℚ), a = b)) :=
  ⟨by simp, variance_nonneg_zero_iff [1, 2] (by simp)⟩

/-! ### Selection sort lemmas -/

lemma mem_range'_iff (s n m : ℕ) : m ∈ List.range' s n ↔ s ≤ m ∧ m < s + n := by
  rw [List.mem_range']
  constructor
  · rintro ⟨i, hi, rfl⟩
    omega
  · intro h
    exact ⟨m - s, by omega, by omega⟩

lemma getD_set_self (l : List ℚ) (i : ℕ) (v d : ℚ) (h : i < l.length) :
    (l.set i v).getD i d = v := by
  rw [List.getD_eq_getElem _ _ (by simpa using h)]
  simp

lemma getD_set_ne (l : List ℚ) {i j : ℕ} (v d : ℚ) (h : i ≠ j) :
    (l.set i v).getD j d = l.getD j d := by
  by_cases hj : j < l.length
  · rw [List.getD_eq_getElem _ _ (by simpa using hj), List.getD_eq_getElem _ _ hj]
    exact List.getElem_set_ne h _
  · rw [List.getD_eq_default, List.getD_eq_default] <;> simp at hj ⊢ <;> omega

lemma listSwap_length (l : List ℚ) (i j : ℕ) : (listSwap l i j).length = l.length := by
  simp [listSwap]

lemma getD_listSwap (l : List ℚ) (i j k : ℕ) (hi : i < l.length) (hj : j < l.length) :
    (listSwap l i j).getD k 0 =
      if k = j then l.getD i 0 else if k = i then l.getD j 0 else l.getD k 0 := by
  rw [listSwap]
  by_cases hkj : k = j
  · subst hkj
    rw [if_pos rfl, getD_set_self _ _ _ _ (by simpa using hj)]
  · rw [if_neg hkj, getD_set_ne _ _ _ (fun hh => hkj hh.symm)]
    by_cases hki : k = i
    · subst hki
      rw [if_pos rfl, getD_set_self _ _ _ _ hi]
    · rw [if_neg hki, getD_set_ne _ _ _ (fun hh => hki hh.symm)]

lemma headSwapPerm : ∀ (t : List ℚ) (k : ℕ) (a : ℚ), k < t.length →
    (t.getD k 0 :: t.set k a).Perm (a :: t) := by
  intro t
  induction t with
  | nil => intro k a hk; simp at hk
  | cons b t ih =>
    intro k a hk
    cases k with
    | zero => simpa using List.Perm.swap a b t
    | succ k =>
      have hk' : k < t.length := by simpa using hk
      have h1 : (t.getD k 0 :: b :: t.set k a).Perm (b :: t.getD k 0 :: t.set k a) :=
        List.Perm.swap _ _ _
      have h2 : (b :: t.getD k 0 :: t.set k a).Perm (b :: a :: t) :=
        List.Perm.cons b (ih k a hk')
      have h3 : (b :: a :: t).Perm (a :: b :: t) := List.Perm.swap _ _ _
      simpa using (h1.trans h2).trans h3

lemma listSwap_perm : ∀ (i : ℕ) (l : List ℚ) (j : ℕ), i ≤ j → j < l.length →
    (listSwap l i j).Perm l := by
  intro i
  induction i with
  | zero =>
    intro l j _ hj
    cases l with
    | nil => simp at hj
    | cons a t =>
      cases j with
      | zero => simp [listSwap]
      | succ k =>
        have hk : k < t.length := by simpa using hj
        simpa [listSwap] using headSwapPerm t k a hk
  | succ m ih =>
    intro l j hij hj
    cases l with
    | nil => simp at hj
    | cons a t =>
      cases j with
      | zero => exact absurd hij (by omega)
      | succ k =>
        have hk : k < t.length := by simpa using hj
        simpa [listSwap] using List.Perm.cons a (ih t k (by omega) hk)

lemma selFold_spec (l : List ℚ) : ∀ (js : List ℕ) (m0 : ℕ),
    (js.foldl (fun m j => if l.getD j 0 < l.getD m 0 then j else m) m0 = m0 ∨
      js.foldl (fun m j => if l.getD j 0 < l.getD m 0 then j else m) m0 ∈ js) ∧
    l.getD (js.foldl (fun m j => if l.getD j 0 < l.getD m 0 then j else m) m0) 0
      ≤ l.getD m0 0 ∧
    ∀ j ∈ js,
      l.getD (js.foldl (fun m j => if l.getD j 0 < l.getD m 0 then j else m) m0) 0
        ≤ l.getD j 0 := by
  intro js
  induction js with
  | nil => intro m0; simp
  | cons j0 js ih =>
    intro m0
    simp only [List.foldl_cons]
    rcases ih (if l.getD j0 0 < l.getD m0 0 then j0 else m0) with ⟨hloc, hle, hall⟩
    have hle0 : l.getD (if l.getD j0 0 < l.getD m0 0 then j0 else m0) 0 ≤ l.getD m0 0 := by
      split
      · exact le_of_lt (by assumption)
      · exact le_refl _
    have hlej0 : l.getD (if l.getD j0 0 < l.getD m0 0 then j0 else m0) 0 ≤ l.getD j0 0 := by
      split
      · exact le_refl _
      · exact le_of_not_lt (by assumption)
    refine ⟨?_, hle.trans hle0, ?_⟩
    · rcases hloc with h | h
      · by_cases hc : l.getD j0 0 < l.getD m0 0
        · rw [if_pos hc] at h ⊢
          rw [h]
          exact Or.inr (by simp)
        · rw [if_neg hc] at h ⊢
          rw [h]
          exact Or.inl rfl
      · exact Or.inr (List.mem_cons_of_mem j0 h)
    · intro j hj
      rcases List.mem_cons.mp hj with rfl | hj2
      · exact hle.trans hlej0
      · exact hall j hj2

lemma selMinIdx_spec (arr : List ℚ) (i : ℕ) (hi : i < arr.length) :
    i ≤ selMinIdx arr i ∧ selMinIdx arr i < arr.length ∧
      ∀ j, i ≤ j → j < arr.length → arr.getD (selMinIdx arr i) 0 ≤ arr.getD j 0 := by
  rcases selFold_spec arr (List.range' (i + 1) (arr.length - (i + 1))) i with ⟨hloc, hle, hall⟩
  have hmem : ∀ j, i < j → j < arr.length →
      j ∈ List.range' (i + 1) (arr.length - (i + 1)) := by
    intro j h1 h2
    rw [mem_range'_iff]
    omega
  have hb : i ≤ selMinIdx arr i ∧ selMinIdx arr i < arr.length := by
    rcases hloc with h | h
    · rw [selMinIdx, h]
      omega
    · rw [mem_range'_iff] at h
      rw [selMinIdx]
      omega
  refine ⟨hb.1, hb.2, ?_⟩
  intro j h1 h2
  rcases eq_or_lt_of_le h1 with rfl | hlt
  · exact hle
  · exact hall j (hmem j hlt h2)

lemma selStep_length (arr : List ℚ) (i : ℕ) : (selStep arr i).length = arr.length := by
  simp [selStep, listSwap]

lemma selStep_perm (arr : List ℚ) (i : ℕ) (hi : i < arr.length) :
    (selStep arr i).Perm arr := by
  rcases selMinIdx_spec arr i hi with ⟨h1, h2, _⟩
  exact listSwap_perm i arr (selMinIdx arr i) h1 h2

lemma selStep_inv (arr : List ℚ) (k : ℕ) (hk : k < arr.length)
    (hinv : ∀ a b, a < k → a < b → b < arr.length → arr.getD a 0 ≤ arr.getD b 0) :
    ∀ a b, a < k + 1 → a < b → b < arr.length →
      (selStep arr k).getD a 0 ≤ (selStep arr k).getD b 0 := by
  rcases selMinIdx_spec arr k hk with ⟨hm1, hm2, hm3⟩
  intro a b ha hab hb
  rw [selStep, getD_listSwap arr k (selMinIdx arr k) a hk hm2,
    getD_listSwap arr k (selMinIdx arr k) b hk hm2]
  rcases Nat.lt_or_ge a k with hak | hak
  · rw [if_neg (by omega), if_neg (by omega)]
    split
    · exact hinv a k hak hak hk
    · split
      · exact hinv a (selMinIdx arr k) hak (by omega) hm2
      · exact hinv a b hak hab hb
  · have hak' : a = k := by omega
    subst hak'
    have hGa : (if a = selMinIdx arr a then arr.getD a 0
        else if a = a then arr.getD (selMinIdx arr a) 0 else arr.getD a 0)
        = arr.getD (selMinIdx arr a) 0 := by
      split
      · rename_i hm
        rw [← hm]
      · rw [if_pos rfl]
    rw [hGa]
    split
    · exact hm3 a (le_refl a) hk
    · rw [if_neg (by omega)]
      exact hm3 b (by omega) hb

lemma selLoop_spec (values : List ℚ) :
    ∀ t, t ≤ values.length →
      ((List.range t).foldl selStep values).length = values.length ∧
      ((List.range t).foldl selStep values).Perm values ∧
      ∀ a b, a < t → a < b → b < values.length →
        ((List.range t).foldl selStep values).getD a 0
          ≤ ((List.range t).foldl selStep values).getD b 0 := by
  intro t
  induction t with
  | zero =>
    intro _
    simp
  | succ t ih =>
    intro ht
    rcases ih (by omega) with ⟨hlen, hperm, hinv⟩
    rw [List.range_succ, List.foldl_append, List.foldl_cons, List.foldl_nil]
    have htF : t < ((List.range t).foldl selStep values).length := by omega
    refine ⟨by rw [selStep_length]; exact hlen, (selStep_perm _ t htF).trans hperm, ?_⟩
    intro a b ha hab hb
    exact selStep_inv _ t htF
      (fun a b h1 h2 h3 => hinv a b h1 h2 (by omega)) a b ha hab (by omega)

lemma selection_sort_perm (values : List ℚ) : (selection_sort values).Perm values :=
  (selLoop_spec values values.length (le_refl _)).2.1

lemma selection_sort_length (values : List ℚ) :
    (selection_sort values).length = values.length :=
  (selection_sort_perm values).length_eq

/-- C9.  `selection_sort` returns an ascending-ordered permutation of its
input: same elements with the same multiplicities, each element `≤` its
successor.  (Non-mutation of the input is inherent: the embedding is a pure
function of an immutable list, matching the Python `values[:]` copy.) -/
theorem selection_sort_perm_sorted (values : List ℚ) :
    (selection_sort values).Perm values ∧
      List.Sorted (· ≤ ·) (selection_sort values) := by
  rcases selLoop_spec values values.length (le_refl _) with ⟨hlen, hperm, hinv⟩
  refine ⟨hperm, ?_⟩
  show List.Pairwise (· ≤ ·) (selection_sort values)
  rw [List.pairwise_iff_getElem]
  intro i j hi hj hij
  have hj' : j < values.length := by
    rw [selection_sort_length] at hj
    exact hj
  have hi' : i < values.length := lt_trans hij hj'
  have h := hinv i j hi' hij hj'
  rw [List.getD_eq_getElem _ _ (by rw [hlen]; exact hi'),
    List.getD_eq_getElem _ _ (by rw [hlen]; exact hj')] at h
  exact h

/-- C7.  For every non-empty value list (witnessed by its minimum `lo` and
maximum `hi`), the median of the selection-sorted values lies between the
minimum and the maximum of the values. -/
theorem median_between_min_max (values : List ℚ) (lo hi : ℚ)
    (hlo : values.min? = some lo) (hhi : values.max? = some hi) :
    lo ≤ median (selection_sort values) ∧ median (selection_sort values) ≤ hi := by
  have hlomem : lo ∈ values := List.min?_mem (fun a b => min_choice a b) hlo
  have hlole : ∀ b ∈ values, lo ≤ b :=
    (List.le_min?_iff (fun a b c => le_min_iff) hlo).mp (le_refl lo)
  have hhile : ∀ b ∈ values, b ≤ hi :=
    (List.max?_le_iff (fun a b c => max_le_iff) hhi).mp (le_refl hi)
  have hne : values ≠ [] := by
    intro h
    rw [h] at hlo
    simp at hlo
  have hpos : 0 < values.length := List.length_pos.mpr hne
  have hSlen : (selection_sort values).length = values.length := selection_sort_length values
  have hmem : ∀ k, k < (selection_sort values).length →
      (selection_sort values).getD k 0 ∈ values := by
    intro k hk
    rw [List.getD_eq_getElem _ _ hk]
    exact (selection_sort_perm values).mem_iff.mp (List.getElem_mem hk)
  simp only [median]
  by_cases hodd : (selection_sort values).length % 2 = 1
  · rw [if_pos hodd]
    have hmid : (selection_sort values).length / 2 < (selection_sort values).length := by omega
    exact ⟨hlole _ (hmem _ hmid), hhile _ (hmem _ hmid)⟩
  · rw [if_neg hodd]
    have h2 : 2 ≤ (selection_sort values).length := by omega
    have hmid : (selection_sort values).length / 2 < (selection_sort values).length := by omega
    have hmid1 : (selection_sort values).length / 2 - 1 < (selection_sort values).length := by
      omega
    have hx := hmem _ hmid1
    have hy := hmem _ hmid
    constructor
    · have h1 := hlole _ hx
      have h2 := hlole _ hy
      linarith
    · have h1 := hhile _ hx
      have h2 := hhile _ hy
      linarith

/-- Witness for C7 at `[1, 2]`. -/
theorem median_between_min_max_witness :
    ([1, 2] : List ℚ).min? = some 1 ∧ ([1, 2] : List ℚ).max? = some 2 ∧
      (1 ≤ median (selection_sort [1, 2]) ∧ median (selection_sort [1, 2]) ≤ 2) := by
  have h1 : ([1, 2] : List ℚ).min? = some 1 := by
    norm_num [List.min?, min_def]
  have h2 : ([1, 2] : List ℚ).max? = some 2 := by
    norm_num [List.max?, max_def]
  exact ⟨h1, h2, median_between_min_max [1, 2] 1 2 h1 h2⟩

/-- C10.  Whenever the compute path reaches `build_report` (result not
`none`), the valid-value list is non-empty, so the divisor `len(values)` of
`mean` and `variance` is positive and the median indices `mid` (and `mid-1`
in the even case) are in bounds of the sorted copy — the division-by-zero /
out-of-bounds branches of `mean`, `variance` and `median` are unreachable
under `main`’s emptiness guard. -/
theorem computeTokens_guard (tokens : List String) (h : computeTokens tokens ≠ none) :
    parsedValues tokens ≠ [] ∧
      0 < (parsedValues tokens).length ∧
      (selection_sort (parsedValues tokens)).length = (parsedValues tokens).length ∧
      (parsedValues tokens).length / 2 < (parsedValues tokens).length ∧
      ((parsedValues tokens).length % 2 = 0 → 1 ≤ (parsedValues tokens).length / 2) := by
  have hne : parsedValues tokens ≠ [] := by
    intro hv
    exact h (by simp [computeTokens, hv])
  have hpos : 0 < (parsedValues tokens).length := List.length_pos.mpr hne
  exact ⟨hne, hpos, selection_sort_length _, by omega, by omega⟩

/-- Witness for C10 at `["2"]`. -/
theorem computeTokens_guard_witness :
    computeTokens ["2"] ≠ none ∧
      (parsedValues ["2"] ≠ [] ∧
        0 < (parsedValues ["2"]).length ∧
        (selection_sort (parsedValues ["2"])).length = (parsedValues ["2"]).length ∧
        (parsedValues ["2"]).length / 2 < (parsedValues ["2"]).length ∧
        ((parsedValues ["2"]).length % 2 = 0 → 1 ≤ (parsedValues ["2"]).length / 2)) := by
  have hv : parsedValues ["2"] = [2] := by simp [parsedValues, parse_tok2]
  have h : computeTokens ["2"] ≠ none := by simp [computeTokens, hv]
  exact ⟨h, computeTokens_guard ["2"] h⟩

/-! ### Mode: C5 -/

/-- Specification-side definition (the spec's words): the distinct values in
first-occurrence insertion order. -/
def firstOccurrences (values : List ℚ) : List ℚ :=
  values.foldl (fun acc v => if v ∈ acc then acc else acc ++ [v]) []

/-- Specification-side definition (the spec's words): the maximum occurrence
count over the values. -/
def maxFrequency (values : List ℚ) : ℕ :=
  ((firstOccurrences values).map (fun k => values.count k)).foldr max 0

lemma firstOccurrences_append (l : List ℚ) (v : ℚ) :
    firstOccurrences (l ++ [v]) =
      if v ∈ firstOccurrences l then firstOccurrences l
      else firstOccurrences l ++ [v] := by
  rw [firstOccurrences, firstOccurrences, List.foldl_append]
  rfl

lemma buildCounts_append (l : List ℚ) (v : ℚ) :
    buildCounts (l ++ [v]) =
      if (buildCounts l).any (fun p => p.1 == v) then
        (buildCounts l).map (fun p => if p.1 == v then (p.1, p.2 + 1) else p)
      else buildCounts l ++ [(v, 1)] := by
  rw [buildCounts, buildCounts, List.foldl_append]
  rfl

lemma mem_firstOccurrences : ∀ (l : List ℚ) (x : ℚ), x ∈ firstOccurrences l ↔ x ∈ l := by
  intro l
  induction l using List.reverseRecOn with
  | nil => intro x; simp [firstOccurrences]
  | append_singleton l v ih =>
    intro x
    rw [firstOccurrences_append]
    by_cases hv : v ∈ firstOccurrences l
    · rw [if_pos hv, ih]
      simp only [List.mem_append, List.mem_singleton]
      constructor
      · exact Or.inl
      · rintro (h | rfl)
        · exact h
        · exact (ih x).mp hv
    · rw [if_neg hv]
      simp [ih]

lemma buildCounts_eq : ∀ l : List ℚ,
    buildCounts l = (firstOccurrences l).map (fun k => (k, l.count k)) := by
  intro l
  induction l using List.reverseRecOn with
  | nil => simp [buildCounts, firstOccurrences]
  | append_singleton l v ih =>
    rw [buildCounts_append, firstOccurrences_append, ih]
    by_cases hv : v ∈ firstOccurrences l
    · have hany : ((firstOccurrences l).map (fun k => (k, l.count k))).any
          (fun p => p.1 == v) = true := by
        rw [List.any_eq_true]
        exact ⟨(v, l.count v), List.mem_map.mpr ⟨v, hv, rfl⟩, by simp⟩
      rw [if_pos hany, if_pos hv, List.map_map]
      apply List.map_congr_left
      intro k hk
      by_cases hkv : k = v
      · subst hkv
        simp [List.count_singleton]
      · have hbeq : (k == v) = false := by simpa using hkv
        have hvk : (v == k) = false := by simpa using Ne.symm hkv
        simp [hbeq, hvk, List.count_singleton]
        exact hkv
    · have hany : ((firstOccurrences l).map (fun k => (k, l.count k))).any
          (fun p => p.1 == v) = false := by
        rw [List.any_eq_false]
        intro p hp
        rcases List.mem_map.mp hp with ⟨k2, hk2, heq⟩
        subst heq
        have hne : k2 ≠ v := fun hh => hv (hh ▸ hk2)
        simpa using hne
      rw [if_neg (by simp [hany]), if_neg hv, List.map_append]
      congr 1
      · apply List.map_congr_left
        intro k hk
        have hvk : (v == k) = false := by
          simp only [beq_eq_false_iff_ne, ne_eq]
          intro hh
          exact hv (hh ▸ hk)
        simp [List.count_singleton, hvk]
      · have hvl : v ∉ l := fun hh => hv ((mem_firstOccurrences l v).mpr hh)
        simp [List.count_singleton, List.count_eq_zero.mpr hvl]

lemma foldl_if_max (f : ℚ → ℕ) :
    ∀ (ks : List ℚ) (m0 : ℕ),
      ks.foldl (fun m k => if f k > m then f k else m) m0
        = max m0 (ks.foldr (fun k m => max (f k) m) 0) := by
  intro ks
  induction ks with
  | nil => intro m0; simp
  | cons k ks ih =>
    intro m0
    rw [List.foldl_cons, List.foldr_cons, ih]
    have h1 : (if f k > m0 then f k else m0) = max m0 (f k) := by
      split <;> omega
    rw [h1]
    omega

lemma maxCountOf_eq (l : List ℚ) : maxCountOf (buildCounts l) = maxFrequency l := by
  rw [maxCountOf, buildCounts_eq, List.foldl_map, maxFrequency, List.foldr_map]
  have := foldl_if_max (fun k => l.count k) (firstOccurrences l) 0
  simpa using this

lemma mode_eq (values : List ℚ) :
    mode values =
      if maxFrequency values ≤ 1 then []
      else (firstOccurrences values).filter
        (fun k => values.count k == maxFrequency values) := by
  simp only [mode]
  rw [maxCountOf_eq, buildCounts_eq]
  by_cases h : maxFrequency values ≤ 1
  · rw [if_pos h, if_pos h]
  · rw [if_neg h, if_neg h, List.filter_map, List.map_map]
    have hcomp :
        ((fun p : ℚ × ℕ => p.2 == maxFrequency values) ∘ fun k => (k, values.count k))
          = fun k => values.count k == maxFrequency values := rfl
    have hfst : (Prod.fst ∘ fun k : ℚ => (k, values.count k)) = id := rfl
    rw [hcomp, hfst, List.map_id]

/-- C5.  `mode` returns the empty list when the maximum frequency is `≤ 1`
(no repeated value); otherwise it returns exactly the values whose occurrence
count equals the maximum frequency, in first-occurrence insertion order; and
the spec's three examples hold. -/
theorem mode_spec (values : List ℚ) :
    mode values =
      (if maxFrequency values ≤ 1 then []
       else (firstOccurrences values).filter
         (fun k => values.count k == maxFrequency values)) ∧
    mode [1, 2, 2, 3] = [2] ∧ mode [1, 2, 3] = [] ∧ mode [1, 1, 2, 2] = [1, 2] := by
  refine ⟨mode_eq values, ?_, ?_, ?_⟩
  · norm_num [mode, buildCounts, maxCountOf]
  · norm_num [mode, buildCounts, maxCountOf]
  · norm_num [mode, buildCounts, maxCountOf]

/-! ### Parse characterisation: C3, C4 -/

/-- Specification-side definition (the spec's words): the token body after
the optional leading sign. -/
def signStripped (s : List Char) : List Char :=
  match s with
  | [] => []
  | c :: rest => if c = '+' ∨ c = '-' then rest else s

/-- Specification-side definition (the spec's words): the sign set by an
optional leading `+` or `-` (default positive). -/
def signValue (s : List Char) : ℚ :=
  match s with
  | [] => 1
  | c :: _ => if c = '-' then -1 else 1

/-- Specification-side definition (the spec's words): the digits of the
integer part. -/
def intDigits (s : List Char) : List Char :=
  (signStripped s).takeWhile isDigitChar

/-- Specification-side definition (the spec's words): the digits of the
fractional part (those after the single decimal point). -/
def fracDigits (s : List Char) : List Char :=
  match (signStripped s).dropWhile isDigitChar with
  | [] => []
  | c :: r => if c = '.' then r.takeWhile isDigitChar else []

/-- Specification-side definition (the spec's words): digit-by-digit
accumulation `value = value*10 + digit`. -/
def digitsValue (ds : List Char) : ℕ :=
  ds.foldl (fun a c => a * 10 + digitVal c) 0

/-- Specification-side definition (the spec's words): the rejection
conditions of `parse` on the trimmed token — empty, a character outside
`[0-9+-.]`, more than one decimal point, a sign not in the first position,
or no digits at all. -/
def specInvalid (s : List Char) : Prop :=
  s = [] ∨
  (∃ c ∈ s, ¬(isDigitChar c = true ∨ c = '+' ∨ c = '-' ∨ c = '.')) ∨
  1 < s.count '.' ∨
  (∃ c ∈ s.tail, c = '+' ∨ c = '-') ∨
  (∀ c ∈ s, isDigitChar c = false)

lemma scanDigits_decomp : ∀ (cs : List Char) (acc cnt : ℕ),
    ∃ ds, (∀ c ∈ ds, isDigitChar c = true) ∧
      cs = ds ++ (scanDigits acc cnt cs).2.2 ∧
      (scanDigits acc cnt cs).2.1 = cnt + ds.length ∧
      (scanDigits acc cnt cs).1 = ds.foldl (fun a c => a * 10 + digitVal c) acc ∧
      (∀ c cs2, (scanDigits acc cnt cs).2.2 = c :: cs2 → isDigitChar c = false) := by
  intro cs
  induction cs with
  | nil =>
    intro acc cnt
    exact ⟨[], by simp, by simp [scanDigits], by simp [scanDigits], by simp [scanDigits],
      by simp [scanDigits]⟩
  | cons c cs ih =>
    intro acc cnt
    by_cases hc : isDigitChar c = true
    · rcases ih (acc * 10 + digitVal c) (cnt + 1) with ⟨ds, hds, hsplit, hcnt, hval, hrest⟩
      have hstep : scanDigits acc cnt (c :: cs)
          = scanDigits (acc * 10 + digitVal c) (cnt + 1) cs := by
        rw [scanDigits, if_pos hc]
      refine ⟨c :: ds, ?_, ?_, ?_, ?_, ?_⟩
      · intro x hx
        rcases List.mem_cons.mp hx with rfl | hx2
        · exact hc
        · exact hds x hx2
      · rw [hstep, List.cons_append]
        exact congrArg (c :: ·) hsplit
      · rw [hstep, hcnt]
        simp
        omega
      · rw [hstep, hval]
        rfl
      · intro x cs2 hx
        rw [hstep] at hx
        exact hrest x cs2 hx
    · have hstep : scanDigits acc cnt (c :: cs) = (acc, cnt, c :: cs) := by
        rw [scanDigits, if_neg hc]
      refine ⟨[], by simp, by simp [hstep], by simp [hstep], by simp [hstep, digitsValue], ?_⟩
      intro x cs2 hx
      rw [hstep] at hx
      cases hx
      simpa using hc

lemma scanDigits_append : ∀ (ds : List Char) (rest : List Char) (acc cnt : ℕ),
    (∀ c ∈ ds, isDigitChar c = true) →
    (∀ c cs2, rest = c :: cs2 → isDigitChar c = false) →
    scanDigits acc cnt (ds ++ rest)
      = (ds.foldl (fun a c => a * 10 + digitVal c) acc, cnt + ds.length, rest) := by
  intro ds
  induction ds with
  | nil =>
    intro rest acc cnt _ hrest
    cases rest with
    | nil => simp [scanDigits]
    | cons c cs2 =>
      have := hrest c cs2 rfl
      simp [scanDigits, this]
  | cons d ds ih =>
    intro rest acc cnt hds hrest
    have hd : isDigitChar d = true := hds d (by simp)
    rw [List.cons_append, scanDigits, if_pos hd,
      ih rest _ _ (fun c hc => hds c (by simp [hc])) hrest]
    simp
    omega

lemma dropWhile_head_not (p : Char → Bool) :
    ∀ (l : List Char) (c : Char) (cs2 : List Char),
      l.dropWhile p = c :: cs2 → p c = false := by
  intro l
  induction l with
  | nil => intro c cs2 h; simp [List.dropWhile] at h
  | cons a l ih =>
    intro c cs2 h
    rw [List.dropWhile_cons] at h
    by_cases ha : p a = true
    · rw [if_pos ha] at h
      exact ih c cs2 h
    · rw [if_neg ha] at h
      cases h
      simpa using ha

lemma scanDigits_takeWhile (l : List Char) :
    scanDigits 0 0 l
      = (digitsValue (l.takeWhile isDigitChar), (l.takeWhile isDigitChar).length,
          l.dropWhile isDigitChar) := by
  have h := scanDigits_append (l.takeWhile isDigitChar) (l.dropWhile isDigitChar) 0 0
    (fun c hc => List.mem_takeWhile_imp hc)
    (fun c cs2 hc => dropWhile_head_not isDigitChar l c cs2 hc)
  rw [List.takeWhile_append_dropWhile] at h
  rw [h, digitsValue]
  simp

lemma parseAfterSign_eval (sign : ℚ) (body : List Char) :
    parseAfterSign sign body =
      (match body.dropWhile isDigitChar with
       | '.' :: r2 =>
         if (body.takeWhile isDigitChar).length + (r2.takeWhile isDigitChar).length = 0
             ∨ r2.dropWhile isDigitChar ≠ [] then none
         else some (sign * ((digitsValue (body.takeWhile isDigitChar) : ℚ)
           + (digitsValue (r2.takeWhile isDigitChar) : ℚ)
             / (10 : ℚ) ^ (r2.takeWhile isDigitChar).length))
       | [] =>
         if (body.takeWhile isDigitChar).length = 0 then none
         else some (sign * (digitsValue (body.takeWhile isDigitChar) : ℚ))
       | _ :: _ => none) := by
  rw [parseAfterSign, scanDigits_takeWhile body]
  dsimp only
  split
  case h_2 => rfl
  case h_3 => rfl
  case h_1 r2 heq => rw [scanDigits_takeWhile r2]

lemma digit_not_dot {c : Char} (h : isDigitChar c = true) : c ≠ '.' := by
  intro hh
  subst hh
  simp [isDigitChar] at h

lemma dot_count_zero_of_digits {l : List Char} (h : ∀ c ∈ l, isDigitChar c = true) :
    l.count '.' = 0 := by
  rw [List.count_eq_zero]
  intro hmem
  exact digit_not_dot (h '.' hmem) rfl

lemma parseCore_cons_sign (c0 : Char) (rest : List Char) :
    parseCore (c0 :: rest)
      = parseAfterSign (signValue (c0 :: rest)) (signStripped (c0 :: rest)) := by
  by_cases hm : c0 = '-'
  · subst hm
    simp [parseCore, signValue, signStripped]
  · by_cases hp : c0 = '+'
    · subst hp
      simp [parseCore, signValue, signStripped]
    · simp [parseCore, signValue, signStripped, hm, hp]

lemma ite_none_ne_none {α : Type} {P : Prop} [Decidable P] {x : α} :
    ((if P then none else some x) ≠ none) ↔ ¬P := by
  by_cases h : P <;> simp [h]

lemma parseAfterSign_ne_none_iff (sign : ℚ) (body : List Char) :
    parseAfterSign sign body ≠ none ↔
      ((∀ c ∈ body, isDigitChar c = true ∨ c = '.') ∧
        body.count '.' ≤ 1 ∧ (∃ c ∈ body, isDigitChar c = true)) := by
  rw [parseAfterSign_eval]
  have hbody := List.takeWhile_append_dropWhile (p := isDigitChar) (l := body)
  have hds : ∀ c ∈ body.takeWhile isDigitChar, isDigitChar c = true :=
    fun c hc => List.mem_takeWhile_imp hc
  split
  case h_1 r2 heq =>
    have hr2 := List.takeWhile_append_dropWhile (p := isDigitChar) (l := r2)
    have hfs : ∀ c ∈ r2.takeWhile isDigitChar, isDigitChar c = true :=
      fun c hc => List.mem_takeWhile_imp hc
    have hbody2 : body = body.takeWhile isDigitChar ++ '.' :: r2 := by
      conv_lhs => rw [← hbody, heq]
    rw [ite_none_ne_none]
    push_neg
    constructor
    · rintro ⟨hlen, hr3⟩
      have hr2fs : r2 = r2.takeWhile isDigitChar := by
        conv_lhs => rw [← hr2]
        rw [hr3, List.append_nil]
      refine ⟨?_, ?_, ?_⟩
      · intro c hc
        rw [hbody2] at hc
        rcases List.mem_append.mp hc with hc1 | hc2
        · exact Or.inl (hds c hc1)
        · rcases List.mem_cons.mp hc2 with rfl | hc3
          · exact Or.inr rfl
          · exact Or.inl (hfs c (by rw [← hr2fs]; exact hc3))
      · rw [hbody2, List.count_append, List.count_cons]
        have h1 : (body.takeWhile isDigitChar).count '.' = 0 :=
          dot_count_zero_of_digits hds
        have h2 : r2.count '.' = 0 := by
          rw [hr2fs]
          exact dot_count_zero_of_digits hfs
        simp [h1, h2]
      · rcases Nat.lt_or_ge 0 (body.takeWhile isDigitChar).length with hl | hl
        · rcases List.exists_mem_of_ne_nil _ (List.ne_nil_of_length_pos hl) with ⟨c, hc⟩
          refine ⟨c, ?_, hds c hc⟩
          rw [hbody2]
          exact List.mem_append.mpr (Or.inl hc)
        · have hfs_ne : (r2.takeWhile isDigitChar).length ≠ 0 := by omega
          rcases List.exists_mem_of_ne_nil (r2.takeWhile isDigitChar)
            (fun hh => hfs_ne (by rw [hh]; rfl)) with ⟨c, hc⟩
          refine ⟨c, ?_, hfs c hc⟩
          rw [hbody2]
          refine List.mem_append.mpr (Or.inr (List.mem_cons_of_mem _ ?_))
          rw [hr2fs]
          exact hc
    · rintro ⟨hall, hcount, hex⟩
      have hr3 : r2.dropWhile isDigitChar = [] := by
        cases hr3eq : r2.dropWhile isDigitChar with
        | nil => rfl
        | cons c3 r4 =>
          have hc3nd : isDigitChar c3 = false := dropWhile_head_not _ r2 c3 r4 hr3eq
          have hc3mem : c3 ∈ body := by
            rw [hbody2]
            refine List.mem_append.mpr (Or.inr (List.mem_cons_of_mem _ ?_))
            rw [← hr2, hr3eq]
            exact List.mem_append.mpr (Or.inr (by simp))
          have hc3dot : c3 = '.' := by
            rcases hall c3 hc3mem with hd | hd
            · rw [hd] at hc3nd
              cases hc3nd
            · exact hd
          subst hc3dot
          have hgt : 1 < body.count '.' := by
            rw [hbody2, List.count_append, List.count_cons]
            have hr2c : 1 ≤ r2.count '.' := by
              have hmm : ('.' : Char) ∈ r2 := by
                rw [← hr2, hr3eq]
                exact List.mem_append.mpr (Or.inr (by simp))
              exact List.one_le_count_iff.mpr hmm
            simp
            omega
          omega
      refine ⟨?_, hr3⟩
      have hr2fs : r2 = r2.takeWhile isDigitChar := by
        conv_lhs => rw [← hr2]
        rw [hr3, List.append_nil]
      rcases hex with ⟨c, hcmem, hcdig⟩
      rw [hbody2] at hcmem
      rcases List.mem_append.mp hcmem with hc1 | hc2
      · have hne : body.takeWhile isDigitChar ≠ [] := List.ne_nil_of_mem hc1
        have := List.length_pos.mpr hne
        omega
      · rcases List.mem_cons.mp hc2 with rfl | hc3
        · exact absurd rfl (digit_not_dot hcdig)
        · have hc4 : c ∈ r2.takeWhile isDigitChar := by
            rw [← hr2fs]
            exact hc3
          have hne : r2.takeWhile isDigitChar ≠ [] := List.ne_nil_of_mem hc4
          have := List.length_pos.mpr hne
          omega
  case h_2 heq =>
    have hbody2 : body = body.takeWhile isDigitChar := by
      conv_lhs => rw [← hbody, heq]
      rw [List.append_nil]
    rw [ite_none_ne_none]
    constructor
    · intro hlen
      refine ⟨fun c hc => Or.inl (hds c (hbody2 ▸ hc)), ?_, ?_⟩
      · rw [hbody2, dot_count_zero_of_digits hds]
        omega
      · have hne : body.takeWhile isDigitChar ≠ [] :=
          fun hh => hlen (by rw [hh]; rfl)
        rcases List.exists_mem_of_ne_nil _ hne with ⟨c, hc⟩
        exact ⟨c, by rw [hbody2]; exact hc, hds c hc⟩
    · rintro ⟨-, -, c, hcmem, hcdig⟩
      have hc2 : c ∈ body.takeWhile isDigitChar := hbody2 ▸ hcmem
      have := List.length_pos.mpr (List.ne_nil_of_mem hc2)
      omega
  case h_3 _ c r2 hnotdot heq =>
    constructor
    · intro h
      exact absurd rfl h
    · rintro ⟨hall, hcount, hex⟩
      exfalso
      have hcnd : isDigitChar c = false := dropWhile_head_not _ body c r2 heq
      have hcmem : c ∈ body := by
        rw [← hbody, heq]
        exact List.mem_append.mpr (Or.inr (by simp))
      rcases hall c hcmem with hd | hd
      · rw [hd] at hcnd
        cases hcnd
      · exact hnotdot hd

lemma parseCore_none_iff (s : List Char) :
    parseCore s = none ↔
      ¬((∀ c ∈ signStripped s, isDigitChar c = true ∨ c = '.') ∧
        (signStripped s).count '.' ≤ 1 ∧
        (∃ c ∈ signStripped s, isDigitChar c = true)) := by
  cases s with
  | nil => simp [parseCore, signStripped]
  | cons c0 rest =>
    rw [parseCore_cons_sign, ← @not_not
      (parseAfterSign (signValue (c0 :: rest)) (signStripped (c0 :: rest)) = none)]
    exact not_congr (parseAfterSign_ne_none_iff _ _)

lemma specInvalid_iff (s : List Char) :
    specInvalid s ↔
      ¬((∀ c ∈ signStripped s, isDigitChar c = true ∨ c = '.') ∧
        (signStripped s).count '.' ≤ 1 ∧
        (∃ c ∈ signStripped s, isDigitChar c = true)) := by
  cases s with
  | nil => simp [specInvalid, signStripped]
  | cons c0 rest =>
    by_cases hsg : c0 = '+' ∨ c0 = '-'
    · have hbody : signStripped (c0 :: rest) = rest := by
        rw [signStripped, if_pos hsg]
      rw [hbody, specInvalid]
      simp only [List.tail_cons]
      constructor
      · rintro (hnil | ⟨c, hcmem, hbad⟩ | hdots | ⟨c, hcmem, hcsign⟩ | hnod)
        · cases hnil
        · rintro ⟨hall, -, -⟩
          rcases List.mem_cons.mp hcmem with rfl | hcr
          · rcases hsg with rfl | rfl
            · exact hbad (Or.inr (Or.inl rfl))
            · exact hbad (Or.inr (Or.inr (Or.inl rfl)))
          · rcases hall c hcr with hd | hd
            · exact hbad (Or.inl hd)
            · exact hbad (Or.inr (Or.inr (Or.inr hd)))
        · rintro ⟨-, hcnt, -⟩
          rw [List.count_cons] at hdots
          have hc0 : (c0 == '.') = false := by
            rcases hsg with rfl | rfl <;> rfl
          rw [hc0] at hdots
          norm_num at hdots
          omega
        · rintro ⟨hall, -, -⟩
          rcases hall c hcmem with hd | hd
          · rcases hcsign with rfl | rfl <;> simp [isDigitChar] at hd
          · rcases hcsign with rfl | rfl <;> cases hd
        · rintro ⟨-, -, c, hcmem, hcd⟩
          rw [hnod c (List.mem_cons_of_mem c0 hcmem)] at hcd
          cases hcd
      · intro hn
        by_cases hA : ∀ c ∈ rest, isDigitChar c = true ∨ c = '.'
        · by_cases hB : rest.count '.' ≤ 1
          · have hC : ¬∃ c ∈ rest, isDigitChar c = true := fun hc => hn ⟨hA, hB, hc⟩
            push_neg at hC
            refine Or.inr (Or.inr (Or.inr (Or.inr ?_)))
            intro c hcmem
            rcases List.mem_cons.mp hcmem with rfl | hcr
            · rcases hsg with rfl | rfl <;> rfl
            · simpa using hC c hcr
          · refine Or.inr (Or.inr (Or.inl ?_))
            rw [List.count_cons]
            push_neg at hB
            omega
        · push_neg at hA
          rcases hA with ⟨c, hcmem, hcbad⟩
          rcases hcbad with ⟨hcd, hcdot⟩
          by_cases hcs : c = '+' ∨ c = '-'
          · exact Or.inr (Or.inr (Or.inr (Or.inl ⟨c, hcmem, hcs⟩)))
          · push_neg at hcs
            refine Or.inr (Or.inl ⟨c, List.mem_cons_of_mem c0 hcmem, ?_⟩)
            rintro (h1 | h2 | h3 | h4)
            · exact hcd h1
            · exact hcs.1 h2
            · exact hcs.2 h3
            · exact hcdot h4
    · have hbody : signStripped (c0 :: rest) = c0 :: rest := by
        rw [signStripped, if_neg hsg]
      rw [hbody, specInvalid]
      simp only [List.tail_cons]
      push_neg at hsg
      constructor
      · rintro (hnil | ⟨c, hcmem, hbad⟩ | hdots | ⟨c, hcmem, hcsign⟩ | hnod)
        · cases hnil
        · rintro ⟨hall, -, -⟩
          rcases hall c hcmem with hd | hd
          · exact hbad (Or.inl hd)
          · exact hbad (Or.inr (Or.inr (Or.inr hd)))
        · rintro ⟨-, hcnt, -⟩
          omega
        · rintro ⟨hall, -, -⟩
          rcases hall c (List.mem_cons_of_mem c0 hcmem) with hd | hd
          · rcases hcsign with rfl | rfl <;> simp [isDigitChar] at hd
          · rcases hcsign with rfl | rfl <;> cases hd
        · rintro ⟨-, -, c, hcmem, hcd⟩
          rw [hnod c hcmem] at hcd
          cases hcd
      · intro hn
        by_cases hA : ∀ c ∈ c0 :: rest, isDigitChar c = true ∨ c = '.'
        · by_cases hB : (c0 :: rest).count '.' ≤ 1
          · have hC : ¬∃ c ∈ c0 :: rest, isDigitChar c = true := fun hc => hn ⟨hA, hB, hc⟩
            push_neg at hC
            refine Or.inr (Or.inr (Or.inr (Or.inr ?_)))
            intro c hcmem
            simpa using hC c hcmem
          · refine Or.inr (Or.inr (Or.inl ?_))
            push_neg at hB
            omega
        · push_neg at hA
          rcases hA with ⟨c, hcmem, hcbad⟩
          rcases hcbad with ⟨hcd, hcdot⟩
          by_cases hcs : c = '+' ∨ c = '-'
          · have hcr : c ∈ rest := by
              rcases List.mem_cons.mp hcmem with rfl | hcr
              · rcases hcs with rfl | rfl
                · exact absurd rfl hsg.1
                · exact absurd rfl hsg.2
              · exact hcr
            exact Or.inr (Or.inr (Or.inr (Or.inl ⟨c, hcr, hcs⟩)))
          · push_neg at hcs
            refine Or.inr (Or.inl ⟨c, hcmem, ?_⟩)
            rintro (h1 | h2 | h3 | h4)
            · exact hcd h1
            · exact hcs.1 h2
            · exact hcs.2 h3
            · exact hcdot h4

/-- C3.  `parse` fails exactly when the stripped token is empty, contains a
character outside `[0-9+-.]`, contains more than one decimal point, contains
a sign not in the first position, or contains no digits at all; every other
token succeeds.  In particular `""`, `"12.3.4"`, `"12a"` and `"--5"` fail. -/
theorem parse_number_none_iff :
    (∀ token : String,
      parse_number token = none ↔ specInvalid (stripChars token.toList)) ∧
    parse_number "" = none ∧ parse_number "12.3.4" = none ∧
    parse_number "12a" = none ∧ parse_number "--5" = none := by
  refine ⟨?_, ?_, ?_, ?_, ?_⟩
  · intro token
    rw [parse_number, parseCore_none_iff, ← specInvalid_iff]
  · simp [parse_number, parseCore, parseAfterSign, stripChars, List.dropWhile_cons,
      Char.isWhitespace, scanDigits, isDigitChar, digitVal]
  · simp [parse_number, parseCore, parseAfterSign, stripChars, List.dropWhile_cons,
      Char.isWhitespace, scanDigits, isDigitChar, digitVal]
  · simp [parse_number, parseCore, parseAfterSign, stripChars, List.dropWhile_cons,
      Char.isWhitespace, scanDigits, isDigitChar, digitVal]
  · simp [parse_number, parseCore, parseAfterSign, stripChars, List.dropWhile_cons,
      Char.isWhitespace, scanDigits, isDigitChar, digitVal]

/-- C4.  For every accepted token the returned value is
`sign * (integerPart + fractionalPart / divisor)`: the sign from the optional
leading `+`/`-` (default positive), both parts accumulated digit by digit as
`value*10 + digit`, and the divisor the power of ten of the fraction length.
In particular `parse "12.5" = 12.5` and `parse "-3" = -3.0`. -/
theorem parse_number_value :
    (∀ (token : String) (q : ℚ), parse_number token = some q →
      q = signValue (stripChars token.toList)
        * ((digitsValue (intDigits (stripChars token.toList)) : ℚ)
          + (digitsValue (fracDigits (stripChars token.toList)) : ℚ)
            / (10 : ℚ) ^ (fracDigits (stripChars token.toList)).length)) ∧
    parse_number "12.5" = some (25 / 2) ∧ parse_number "-3" = some (-3) := by
  refine ⟨?_, ?_, ?_⟩
  · intro token q h
    rw [parse_number] at h
    rw [intDigits, fracDigits]
    generalize hseq : stripChars token.toList = s at h ⊢
    cases s with
    | nil => simp [parseCore] at h
    | cons c0 rest =>
      rw [parseCore_cons_sign, parseAfterSign_eval] at h
      split at h
      case h_1 r2 heq =>
        rw [heq]
        split at h
        · simp at h
        · rcases Option.some.inj h with h2
          rw [← h2]
          rfl
      case h_2 heq =>
        rw [heq]
        split at h
        · simp at h
        · rcases Option.some.inj h with h2
          rw [← h2]
          have hdv : digitsValue ([] : List Char) = 0 := rfl
          rw [hdv]
          norm_num
      case h_3 c r2 hnotdot heq =>
        simp at h
  · simp [parse_number, parseCore, parseAfterSign, stripChars, List.dropWhile_cons,
      Char.isWhitespace, scanDigits, isDigitChar, digitVal]
    norm_num
  · simp [parse_number, parseCore, parseAfterSign, stripChars, List.dropWhile_cons,
      Char.isWhitespace, scanDigits, isDigitChar, digitVal]

/-- Witness for C4 at the token `"12.5"`. -/
theorem parse_number_value_witness :
    parse_number "12.5" = some (25 / 2) ∧
      (25 / 2 : ℚ) = signValue (stripChars "12.5".toList)
        * ((digitsValue (intDigits (stripChars "12.5".toList)) : ℚ)
          + (digitsValue (fracDigits (stripChars "12.5".toList)) : ℚ)
            / (10 : ℚ) ^ (fracDigits (stripChars "12.5".toList)).length) :=
  ⟨parse_number_value.2.1,
    parse_number_value.1 "12.5" (25 / 2) parse_number_value.2.1⟩

end ComputeStatistics
